import Mathlib

/-!
Verification development for the covid19-sir (covsirphy) phase-segmented
ODE parameter-estimation and scenario-simulation engine.

The repository material under `src/` consists of usage notebooks and an
issue template only; the engine itself (Trend Segmenter, ODE Model,
Phase Estimator, Scenario Manager, PolicyMeasures) is not present there.
All core definitions below are therefore modelled from the specification
document, faithful to its words, and marked as such in their doc comments.
Dates are day indices (`Nat`), numeric values are exact rationals (`ℚ`).
-/

namespace CovSirPhy

/-! ## Trend Segmenter -/

/-- Modelled from the spec: squared value, used by the piecewise-linear
fit error of the Trend Segmenter. -/
def sqQ (x : ℚ) : ℚ := x * x

/-- Modelled from the spec (missing Trend Segmenter implementation):
piecewise-linear fit error of one candidate segment `[lo, hi)` of the
transformed series, measured against the secant line through the segment's
endpoint values (cross-multiplied to stay in exact rationals).  Segments of
at most two points are fitted exactly (error 0). -/
def sseCost (ys : List ℚ) (lo hi : Nat) : ℚ :=
  let n := hi - lo
  if n ≤ 2 then 0
  else
    let y0 := ys.getD lo 0
    let y1 := ys.getD (hi - 1) 0
    let d : ℚ := (n : ℚ) - 1
    ((List.range n).map
      (fun j => sqQ ((ys.getD (lo + j) 0) * d - (y0 * (d - (j : ℚ)) + y1 * (j : ℚ))))).foldr
      (fun a b => a + b) 0

/-- Modelled from the spec: the admissible breakpoints of the interval
`[lo, hi)` for minimum segment length `L`: interior points leaving at
least `L` points on each side. -/
def splitCandidates (L lo hi : Nat) : List Nat :=
  (List.range (hi + 1)).filter
    (fun k => decide (lo < k ∧ k < hi ∧ lo + L ≤ k ∧ k + L ≤ hi))

/-- Modelled from the spec: deterministic argmin over a candidate list with
the spec's stable tie-break (earliest valid breakpoint wins). -/
def pickMin (cost : Nat → ℚ) : List Nat → Option Nat
  | [] => none
  | k :: rest =>
    match pickMin cost rest with
    | none => some k
    | some m => if cost m < cost k then some m else some k

/-- Modelled from the spec (missing Trend Segmenter implementation):
greedy binary segmentation of `[lo, hi)` with a penalty term controlling
the phase count.  `fuel` bounds the recursion depth; `fuel = hi - lo`
always suffices.  If the interval holds fewer than `2 * L` points, or no
admissible breakpoint improves the fit by more than the penalty, the whole
interval is one phase. -/
def trendSegmentF (cost : Nat → Nat → ℚ) (pen : ℚ) (L : Nat) :
    Nat → Nat → Nat → List (Nat × Nat)
  | 0, lo, hi => [(lo, hi)]
  | fuel + 1, lo, hi =>
    if hi - lo < 2 * L then [(lo, hi)]
    else
      match pickMin (fun k => cost lo k + cost k hi) (splitCandidates L lo hi) with
      | none => [(lo, hi)]
      | some k =>
        if cost lo k + cost k hi + pen < cost lo hi then
          trendSegmentF cost pen L fuel lo k ++ trendSegmentF cost pen L fuel k hi
        else [(lo, hi)]

/-- Modelled from the spec: the Trend Segmenter's change-point search on an
interval, with enough fuel for the whole interval. -/
def trendSegment (cost : Nat → Nat → ℚ) (pen : ℚ) (L lo hi : Nat) : List (Nat × Nat) :=
  trendSegmentF cost pen L (hi - lo) lo hi

/-- Modelled from the spec: Trend Segmenter entry point on a transformed
series (the log-linearised S-R coordinate is produced by the caller), with
minimum segment length `L` and unit penalty. -/
def segmentSeries (ys : List ℚ) (L : Nat) : List (Nat × Nat) :=
  trendSegment (sseCost ys) 1 L 0 ys.length

/-! ## ODE Model (SIR-F variant) -/

/-- Modelled from the spec (missing ODE Model implementation): the SIR-F
parameter set (theta, kappa, rho, sigma), tau-scaled dimensionless rates. -/
structure Params where
  theta : ℚ
  kappa : ℚ
  rho : ℚ
  sigma : ℚ
deriving DecidableEq

/-- Modelled from the spec: domain-valid parameter bounds — every
tau-scaled rate lies in `[0, 1]`. -/
def validParams (p : Params) : Prop :=
  0 ≤ p.theta ∧ p.theta ≤ 1 ∧ 0 ≤ p.kappa ∧ p.kappa ≤ 1 ∧
  0 ≤ p.rho ∧ p.rho ≤ 1 ∧ 0 ≤ p.sigma ∧ p.sigma ≤ 1

instance (p : Params) : Decidable (validParams p) := by
  unfold validParams; infer_instance

/-- Modelled from the spec: the SIR-F state vector
(Susceptible, Infected, Recovered, Fatal). -/
structure StateV where
  s : ℚ
  i : ℚ
  r : ℚ
  f : ℚ
deriving DecidableEq

/-- The state vector as a list of components (its dimensionality is the
list's length). -/
def stateList (st : StateV) : List ℚ := [st.s, st.i, st.r, st.f]

/-- Modelled from the spec (missing ODE Model implementation): the SIR-F
instantaneous derivative for population `N`. -/
def sirfDeriv (N : ℚ) (p : Params) (st : StateV) : StateV :=
  { s := -(p.rho * st.s * st.i / N)
    i := p.rho * (1 - p.theta) * st.s * st.i / N - (p.kappa + p.sigma) * st.i
    r := p.sigma * st.i
    f := p.rho * p.theta * st.s * st.i / N + p.kappa * st.i }

/-- Modelled from the spec: one explicit-Euler step of size tau (the
parameters are tau-scaled, so the step size is 1). -/
def eulerStep (N : ℚ) (p : Params) (st : StateV) : StateV :=
  let d := sirfDeriv N p st
  { s := st.s + d.s, i := st.i + d.i, r := st.r + d.r, f := st.f + d.f }

/-- Modelled from the spec: the simulated trajectory — the states reached
after steps `1, …, n` from `st`. -/
def simTraj (N : ℚ) (p : Params) : Nat → StateV → List StateV
  | 0, _ => []
  | n + 1, st => eulerStep N p st :: simTraj N p n (eulerStep N p st)

/-- Modelled from the spec: the final state after `n` Euler steps, chained
into the next phase's initial state. -/
def simFinal (N : ℚ) (p : Params) : Nat → StateV → StateV
  | 0, st => st
  | n + 1, st => simFinal N p n (eulerStep N p st)

/-- The per-step invariant claimed by the spec: all components
non-negative and summing to the population. -/
def stateGood (N : ℚ) (st : StateV) : Prop :=
  0 ≤ st.s ∧ 0 ≤ st.i ∧ 0 ≤ st.r ∧ 0 ≤ st.f ∧ st.s + st.i + st.r + st.f = N

instance (N : ℚ) (st : StateV) : Decidable (stateGood N st) := by
  unfold stateGood; infer_instance

/-! ## Phase Estimator -/

/-- Modelled from the spec: the number of free parameters of the SIR-F
model (theta, kappa, rho, sigma). -/
def freeParamCount : Nat := 4

/-- Modelled from the spec (missing Phase Estimator implementation):
sum of squared componentwise residuals between a simulated trajectory and
the observed data over the phase window. -/
def resid : List StateV → List StateV → ℚ
  | a :: as, b :: bs =>
    sqQ (a.s - b.s) + sqQ (a.i - b.i) + sqQ (a.r - b.r) + sqQ (a.f - b.f) + resid as bs
  | _, _ => 0

/-- Modelled from the spec: the estimator's distance metric — residual of
the Euler-stepped trajectory against the observed phase window. -/
def fitCost (N : ℚ) (obs : List StateV) (s0 : StateV) (p : Params) : ℚ :=
  resid (simTraj N p obs.length s0) obs

/-- Modelled from the spec: deterministic multi-start candidate grid; the
iteration budget fixes how many starts are examined. -/
def candList (budget : Nat) : List Params :=
  (List.range (budget + 1)).map
    (fun j => let v : ℚ := (j : ℚ) / ((budget : ℚ) + 1); ⟨v, v, v, v⟩)

/-- Modelled from the spec: best candidate under the cost, examined left to
right; only a strict improvement replaces the incumbent, so the earliest
minimiser wins. -/
def pickBest (cost : Params → ℚ) : Params → List Params → Params
  | best, [] => best
  | best, q :: rest =>
    if cost q < cost best then pickBest cost q rest else pickBest cost best rest

/-- Modelled from the spec: the estimator's result — fitted parameters, a
goodness-of-fit score and a low-confidence flag. -/
structure EstimationResult where
  params : Params
  score : ℚ
  lowConfidence : Bool
deriving DecidableEq

/-- Modelled from the spec (missing Phase Estimator implementation):
bounded multi-start optimisation of one phase.  Never raises: the
best-found parameters are always returned; under-determination (fewer data
points than free parameters) or budget exhaustion without meeting the
tolerance only set the low-confidence flag. -/
def phaseEstimate (N : ℚ) (obs : List StateV) (s0 : StateV) (budget : Nat) (tol : ℚ) :
    EstimationResult :=
  let best := pickBest (fitCost N obs s0) ⟨0, 0, 0, 0⟩ (candList budget)
  let score := fitCost N obs s0 best
  { params := best
    score := score
    lowConfidence := decide (obs.length < freeParamCount) || decide (tol < score) }

/-- `segChain lo hi l` states that the phase list `l` is ordered and
contiguous: each phase is nonempty, starts where the previous one ended,
the first starts at `lo` and the last ends at `hi` — i.e. the phases
partition the date range `[lo, hi)` with no gaps and no overlaps. -/
def segChain : Nat → Nat → List (Nat × Nat) → Prop
  | lo, hi, [] => lo = hi
  | lo, hi, (a, b) :: rest => a = lo ∧ a < b ∧ segChain b hi rest

/-! ## Scenario Manager -/

/-- Modelled from the spec: a phase — date-bounded segment with constant
ODE parameters; `params = none` means "not yet estimated", `some` covers
both estimated parameters and explicit overrides. -/
structure Phase where
  startD : Nat
  endD : Nat
  params : Option Params
deriving DecidableEq

/-- Modelled from the spec: the error taxonomy of the core. -/
inductive SimErr where
  | phaseNotFound
  | incompletePhase
  | invalidParameter
deriving DecidableEq

/-- Lookup in an association list keyed by scenario name (first match). -/
def alookup {α : Type} : List (String × α) → String → Option α
  | [], _ => none
  | (k, v) :: rest, n => if k = n then some v else alookup rest n

/-- Replace the value stored under a name (first occurrence), keeping the
rest of the association list unchanged. -/
def areplace {α : Type} : List (String × α) → String → α → List (String × α)
  | [], _, _ => []
  | (k, v) :: rest, n, v2 =>
    if k = n then (k, v2) :: rest else (k, v) :: areplace rest n v2

/-- Modelled from the spec (missing Scenario Manager implementation): the
scenario state — population, anchored initial state, observed series, and
named, independently mutable phase sequences. -/
structure Scenario where
  population : ℚ
  init : StateV
  obs : List StateV
  registry : List (String × List Phase)
deriving DecidableEq

/-- Replace the named phase sequence. -/
def Scenario.withPhases (sc : Scenario) (name : String) (ps : List Phase) : Scenario :=
  { sc with registry := areplace sc.registry name ps }

/-- Modelled from the spec: `clone(source_name, new_name)` — deep-copies a
named scenario's phase sequence under a new name (the notebooks invoke it
as `Scenario.clear`); fails if the source is missing. -/
def Scenario.clear (sc : Scenario) (src new : String) : Except SimErr Scenario :=
  match alookup sc.registry src with
  | none => .error .phaseNotFound
  | some ps => .ok { sc with registry := (new, ps) :: sc.registry }

/-- Modelled from the spec: `add_phase` — appends a new phase directly
after the current last phase; parameter overrides mark it estimated.
Fails if the scenario is missing, has no phase to append after, or the new
end date does not extend the sequence. -/
def Scenario.add (sc : Scenario) (name : String) (endD : Nat) (pov : Option Params) :
    Except SimErr Scenario :=
  match alookup sc.registry name with
  | none => .error .phaseNotFound
  | some ps =>
    match ps.getLast? with
    | none => .error .phaseNotFound
    | some lastPh =>
      if lastPh.endD < endD then
        .ok (sc.withPhases name (ps ++ [⟨lastPh.endD, endD, pov⟩]))
      else .error .invalidParameter

/-- Modelled from the spec: `remove_phases` (trailing form) — deletes the
last phase; fails with the phase-not-found error if the scenario would
become empty. -/
def Scenario.removeLast (sc : Scenario) (name : String) : Except SimErr Scenario :=
  match alookup sc.registry name with
  | none => .error .phaseNotFound
  | some ps =>
    if ps.length ≤ 1 then .error .phaseNotFound
    else .ok (sc.withPhases name ps.dropLast)

/-- Set the parameters of the phase at a position. -/
def setParams : List Phase → Nat → Params → List Phase
  | [], _, _ => []
  | ph :: rest, 0, p => { ph with params := some p } :: rest
  | ph :: rest, n + 1, p => ph :: setParams rest n p

/-- Modelled from the spec: explicit parameter override of one phase. -/
def Scenario.override (sc : Scenario) (name : String) (idx : Nat) (p : Params) :
    Except SimErr Scenario :=
  match alookup sc.registry name with
  | none => .error .phaseNotFound
  | some ps =>
    if idx < ps.length then .ok (sc.withPhases name (setParams ps idx p))
    else .error .phaseNotFound

/-- Modelled from the spec: the observed slice of a phase window. -/
def obsSlice (obs : List StateV) (ph : Phase) : List StateV :=
  (obs.drop ph.startD).take (ph.endD - ph.startD)

/-- Modelled from the spec: default optimisation budget of the estimator. -/
def budgetDefault : Nat := 8

/-- Modelled from the spec: default convergence tolerance of the
estimator. -/
def tolDefault : ℚ := 1 / 100

/-- Modelled from the spec: run the Phase Estimator over every unestimated
phase; estimated phases are never silently re-estimated. -/
def estimatePhases (sc : Scenario) (ps : List Phase) : List Phase :=
  ps.map (fun ph =>
    match ph.params with
    | some _ => ph
    | none =>
      let er := phaseEstimate sc.population (obsSlice sc.obs ph) sc.init
        budgetDefault tolDefault
      { ph with params := some er.params })

/-- Modelled from the spec: `estimate(scenario_name, model_kind)` for the
SIR-F model. -/
def Scenario.estimate (sc : Scenario) (name : String) : Except SimErr Scenario :=
  match alookup sc.registry name with
  | none => .error .phaseNotFound
  | some ps => .ok (sc.withPhases name (estimatePhases sc ps))

/-- Modelled from the spec: phases within the simulation range — those
starting before the horizon date. -/
def inRange (ps : List Phase) (horizon : Nat) : List Phase :=
  ps.filter (fun ph => decide (ph.startD < horizon))

/-- Extract the parameters of every phase; `none` when some phase has
neither estimated parameters nor explicit overrides. -/
def withParams : List Phase → Option (List (Nat × Nat × Params))
  | [] => some []
  | ph :: rest =>
    match ph.params, withParams rest with
    | some p, some l => some ((ph.startD, ph.endD, p) :: l)
    | _, _ => none

/-- Modelled from the spec: phase-by-phase chained simulation — each phase
is Euler-stepped over its (horizon-clipped) window and its final state
feeds the next phase's initial state. -/
def simChain (N : ℚ) (horizon : Nat) : StateV → List (Nat × Nat × Params) → List StateV
  | _, [] => []
  | s0, (a, b, p) :: rest =>
    simTraj N p (min b horizon - a) s0 ++
      simChain N horizon (simFinal N p (min b horizon - a) s0) rest

/-- Modelled from the spec: `simulate(scenario_name, horizon_date)` —
steps the ODE model phase-by-phase from the first phase's initial state;
fails with the incomplete-phase error if any phase in range lacks
parameters. -/
def Scenario.simulate (sc : Scenario) (name : String) (horizon : Nat) :
    Except SimErr (List StateV) :=
  match alookup sc.registry name with
  | none => .error .phaseNotFound
  | some ps =>
    match withParams (inRange ps horizon) with
    | none => .error .incompletePhase
    | some l => .ok (simChain sc.population horizon sc.init l)

/-- Modelled from the spec: the scenario-level mutation operations, each
carrying the name it targets. -/
inductive Op where
  | addPhase (name : String) (endD : Nat) (pov : Option Params)
  | removeLast (name : String)
  | override (name : String) (idx : Nat) (p : Params)
  | estimate (name : String)
deriving DecidableEq

/-- The scenario name an operation targets. -/
def Op.target : Op → String
  | .addPhase n _ _ => n
  | .removeLast n => n
  | .override n _ _ => n
  | .estimate n => n

/-- Apply one operation, propagating its error. -/
def opApply (sc : Scenario) : Op → Except SimErr Scenario
  | .addPhase n e p => sc.add n e p
  | .removeLast n => sc.removeLast n
  | .override n i p => sc.override n i p
  | .estimate n => sc.estimate n

/-- Modelled from the spec: caller-level semantics — a structural error
aborts only the requested operation, leaving prior state intact. -/
def runOp (sc : Scenario) (op : Op) : Scenario :=
  match opApply sc op with
  | .ok sc2 => sc2
  | .error _ => sc

/-- Run a sequence of operations. -/
def runOps (sc : Scenario) (ops : List Op) : Scenario :=
  ops.foldl runOp sc

/-! ## PolicyMeasures -/

/-- Modelled from the spec and the policy-measures notebook: the analyser
holds registered countries with their transformed series and, after trend
analysis, their phase boundaries. -/
structure PolicyMeasures where
  tau : Nat
  registry : List (String × List ℚ)
  phaseMap : List (String × List (Nat × Nat))
deriving DecidableEq

/-- The registered countries. -/
def PolicyMeasures.countries (pm : PolicyMeasures) : List String :=
  pm.registry.map Prod.fst

/-- Modelled from the spec and the policy-measures notebook:
`PolicyMeasures.trend(min_len=n)` runs S-R trend analysis for every
registered country and un-registers the countries that do not reach the
required number of phases. -/
def PolicyMeasures.trend (pm : PolicyMeasures) (minLen : Nat) : PolicyMeasures :=
  let kept := pm.registry.filter (fun e => decide (minLen ≤ (segmentSeries e.2 1).length))
  { pm with
      registry := kept
      phaseMap := kept.map (fun e => (e.1, segmentSeries e.2 1)) }

/-! ## Concrete example inputs -/

/-- Inert SIR-F parameters: every rate zero, so an Euler step is the
identity. -/
def pZero : Params := ⟨0, 0, 0, 0⟩

/-- A small concrete state for population 4. -/
def stW : StateV := ⟨3, 1, 0, 0⟩

/-- A one-phase scenario whose only phase is fully parameterised. -/
def scSim : Scenario :=
  { population := 4, init := stW, obs := [], registry := [("Main", [⟨0, 1, some pZero⟩])] }

/-- A scenario whose only phase is unestimated. -/
def scInc : Scenario :=
  { population := 4, init := stW, obs := [], registry := [("Main", [⟨0, 2, none⟩])] }

/-- A two-phase, fully parameterised scenario. -/
def scTwo : Scenario :=
  { population := 4, init := stW, obs := [],
    registry := [("Main", [⟨0, 1, some pZero⟩, ⟨1, 2, some pZero⟩])] }

/-- The clone of `scSim`'s "Main" sequence under the name "New". -/
def scSimClone : Scenario :=
  { scSim with registry := ("New", [⟨0, 1, some pZero⟩]) :: scSim.registry }

/-- A mutation sequence targeting only the clone "New". -/
def opsW : List Op := [Op.addPhase "New" 5 none]

/-- Domain-valid SIR-F parameters whose combined outflow rate exceeds 1. -/
def pBad : Params := ⟨0, 1, 0, 1⟩

/-- A valid state for population 4, everyone infected. -/
def stBad : StateV := ⟨0, 4, 0, 0⟩

/-- Domain-valid SIR-F parameters with combined outflow rate exactly 1. -/
def pOkc : Params := ⟨1 / 2, 1 / 2, 0, 1 / 2⟩

/-- A valid state for population 4. -/
def stOkc : StateV := ⟨1, 1, 1, 1⟩

/-- A two-country analyser: one short series and one series with a sharp
trend change. -/
def pmW : PolicyMeasures := ⟨360, [("Deficient", [0]), ("Japan", [0, 100, 0])], []⟩

end CovSirPhy

namespace CovSirPhy

/-! ## Trend Segmenter lemmas -/

theorem pickMin_mem {cost : Nat → ℚ} : ∀ {l : List Nat} {k : Nat},
    pickMin cost l = some k → k ∈ l := by
  intro l
  induction l with
  | nil => intro k h; simp [pickMin] at h
  | cons a rest ih =>
    intro k h
    cases hrec : pickMin cost rest with
    | none =>
      rw [pickMin, hrec] at h
      exact (Option.some_inj.mp h) ▸ List.mem_cons_self a rest
    | some m =>
      rw [pickMin, hrec] at h
      dsimp only at h
      by_cases hc : cost m < cost a
      · rw [if_pos hc] at h
        exact List.mem_cons_of_mem a ((Option.some_inj.mp h) ▸ ih hrec)
      · rw [if_neg hc] at h
        exact (Option.some_inj.mp h) ▸ List.mem_cons_self a rest

theorem splitCandidates_mem {L lo hi k : Nat} (h : k ∈ splitCandidates L lo hi) :
    lo < k ∧ k < hi ∧ lo + L ≤ k ∧ k + L ≤ hi := by
  have h2 := List.of_mem_filter h
  simpa using h2

theorem segChain_append : ∀ {l1 l2 : List (Nat × Nat)} {lo mid hi : Nat},
    segChain lo mid l1 → segChain mid hi l2 → segChain lo hi (l1 ++ l2) := by
  intro l1
  induction l1 with
  | nil =>
    intro l2 lo mid hi h1 h2
    have : lo = mid := h1
    simpa [this] using h2
  | cons ab t ih =>
    intro l2 lo mid hi h1 h2
    obtain ⟨ha, hab, hrest⟩ := h1
    exact ⟨ha, hab, ih hrest h2⟩

theorem trendSegmentF_chain (cost : Nat → Nat → ℚ) (pen : ℚ) (L : Nat) :
    ∀ fuel lo hi, lo < hi → hi - lo ≤ fuel →
      segChain lo hi (trendSegmentF cost pen L fuel lo hi) := by
  intro fuel
  induction fuel with
  | zero => intro lo hi h1 h2; omega
  | succ fuel ih =>
    intro lo hi h1 h2
    by_cases hshort : hi - lo < 2 * L
    · rw [trendSegmentF, if_pos hshort]
      exact ⟨rfl, h1, rfl⟩
    · rw [trendSegmentF, if_neg hshort]
      cases hpick : pickMin (fun k => cost lo k + cost k hi) (splitCandidates L lo hi) with
      | none => exact ⟨rfl, h1, rfl⟩
      | some k =>
        obtain ⟨hk1, hk2, hk3, hk4⟩ := splitCandidates_mem (pickMin_mem hpick)
        dsimp only
        by_cases hgate : cost lo k + cost k hi + pen < cost lo hi
        · rw [if_pos hgate]
          exact segChain_append (ih lo k hk1 (by omega)) (ih k hi hk2 (by omega))
        · rw [if_neg hgate]
          exact ⟨rfl, h1, rfl⟩

theorem trendSegmentF_minLen (cost : Nat → Nat → ℚ) (pen : ℚ) (L : Nat) :
    ∀ fuel lo hi, ∀ ab ∈ trendSegmentF cost pen L fuel lo hi,
      min L (hi - lo) ≤ ab.2 - ab.1 := by
  intro fuel
  induction fuel with
  | zero =>
    intro lo hi ab hab
    rw [trendSegmentF] at hab
    rcases List.mem_singleton.mp hab with rfl
    exact Nat.min_le_right _ _
  | succ fuel ih =>
    intro lo hi ab hab
    by_cases hshort : hi - lo < 2 * L
    · rw [trendSegmentF, if_pos hshort] at hab
      rcases List.mem_singleton.mp hab with rfl
      exact Nat.min_le_right _ _
    · rw [trendSegmentF, if_neg hshort] at hab
      revert hab
      cases hpick : pickMin (fun k => cost lo k + cost k hi) (splitCandidates L lo hi) with
      | none =>
        intro hab
        rcases List.mem_singleton.mp hab with rfl
        exact Nat.min_le_right _ _
      | some k =>
        obtain ⟨hk1, hk2, hk3, hk4⟩ := splitCandidates_mem (pickMin_mem hpick)
        dsimp only
        by_cases hgate : cost lo k + cost k hi + pen < cost lo hi
        · rw [if_pos hgate]
          intro hab
          rcases List.mem_append.mp hab with hmem | hmem
          · have := ih lo k ab hmem
            omega
          · have := ih k hi ab hmem
            omega
        · rw [if_neg hgate]
          intro hab
          rcases List.mem_singleton.mp hab with rfl
          exact Nat.min_le_right _ _

theorem trendSegment_short (cost : Nat → Nat → ℚ) (pen : ℚ) {L lo hi : Nat}
    (h1 : lo < hi) (h2 : hi - lo < 2 * L) :
    trendSegment cost pen L lo hi = [(lo, hi)] := by
  unfold trendSegment
  cases hf : hi - lo with
  | zero => omega
  | succ n => rw [trendSegmentF, if_pos (hf ▸ h2)]

theorem segChain_mem_lt : ∀ {l : List (Nat × Nat)} {lo hi : Nat},
    segChain lo hi l → ∀ ab ∈ l, ab.1 < ab.2 := by
  intro l
  induction l with
  | nil => intro lo hi _ ab hab; simp at hab
  | cons x t ih =>
    intro lo hi h ab hab
    obtain ⟨hx, hxlt, hrest⟩ := h
    rcases List.mem_cons.mp hab with rfl | hmem
    · exact hxlt
    · exact ih hrest ab hmem

theorem segChain_chain : ∀ {l : List (Nat × Nat)} {lo hi : Nat},
    segChain lo hi l → List.Chain' (fun x y => x.2 = y.1) l := by
  intro l
  induction l with
  | nil => intro lo hi _; exact List.chain'_nil
  | cons x t ih =>
    intro lo hi h
    obtain ⟨hx, hxlt, hrest⟩ := h
    cases t with
    | nil => simp
    | cons y t2 =>
      have hchain := ih hrest
      obtain ⟨hy, hylt, hrest2⟩ := hrest
      exact List.Chain'.cons (by simp [hy]) hchain

theorem segChain_last : ∀ {l : List (Nat × Nat)} {lo hi : Nat},
    segChain lo hi l → l ≠ [] → l.getLast?.map Prod.snd = some hi := by
  intro l
  induction l with
  | nil => intro lo hi _ hne; exact absurd rfl hne
  | cons x t ih =>
    intro lo hi h _
    obtain ⟨hx, hxlt, hrest⟩ := h
    cases t with
    | nil =>
      have : x.2 = hi := hrest
      simp [List.getLast?, this]
    | cons y t2 =>
      rw [List.getLast?_cons_cons]
      exact ih hrest (by simp)

/-! ## ODE Model lemmas -/

theorem eulerStep_good {N : ℚ} {p : Params} {st : StateV}
    (hN : 0 < N) (hv : validParams p) (hks : p.kappa + p.sigma ≤ 1)
    (hg : stateGood N st) : stateGood N (eulerStep N p st) := by
  obtain ⟨ht0, ht1, hk0, hk1, hr0, hr1, hs0, hs1⟩ := hv
  obtain ⟨hgs, hgi, hgr, hgf, hgsum⟩ := hg
  have hiN : st.i ≤ N := by linarith
  have hNne : N ≠ 0 := ne_of_gt hN
  refine ⟨?_, ?_, ?_, ?_, ?_⟩
  · show 0 ≤ st.s + -(p.rho * st.s * st.i / N)
    have heq : st.s + -(p.rho * st.s * st.i / N) = st.s * (N - p.rho * st.i) / N := by
      field_simp
      ring
    rw [heq]
    apply div_nonneg _ hN.le
    apply mul_nonneg hgs
    nlinarith
  · show 0 ≤ st.i + (p.rho * (1 - p.theta) * st.s * st.i / N - (p.kappa + p.sigma) * st.i)
    have heq : st.i + (p.rho * (1 - p.theta) * st.s * st.i / N - (p.kappa + p.sigma) * st.i)
        = st.i * (1 - (p.kappa + p.sigma)) + p.rho * (1 - p.theta) * st.s * st.i / N := by
      ring
    rw [heq]
    apply add_nonneg
    · apply mul_nonneg hgi
      linarith
    · apply div_nonneg _ hN.le
      have h1 : 0 ≤ p.rho * (1 - p.theta) := mul_nonneg hr0 (by linarith)
      have h2 : 0 ≤ p.rho * (1 - p.theta) * st.s := mul_nonneg h1 hgs
      exact mul_nonneg h2 hgi
  · show 0 ≤ st.r + p.sigma * st.i
    exact add_nonneg hgr (mul_nonneg hs0 hgi)
  · show 0 ≤ st.f + (p.rho * p.theta * st.s * st.i / N + p.kappa * st.i)
    apply add_nonneg hgf
    apply add_nonneg
    · apply div_nonneg _ hN.le
      exact mul_nonneg (mul_nonneg (mul_nonneg hr0 ht0) hgs) hgi
    · exact mul_nonneg hk0 hgi
  · show st.s + -(p.rho * st.s * st.i / N)
      + (st.i + (p.rho * (1 - p.theta) * st.s * st.i / N - (p.kappa + p.sigma) * st.i))
      + (st.r + p.sigma * st.i)
      + (st.f + (p.rho * p.theta * st.s * st.i / N + p.kappa * st.i)) = N
    have heq : st.s + -(p.rho * st.s * st.i / N)
        + (st.i + (p.rho * (1 - p.theta) * st.s * st.i / N - (p.kappa + p.sigma) * st.i))
        + (st.r + p.sigma * st.i)
        + (st.f + (p.rho * p.theta * st.s * st.i / N + p.kappa * st.i))
        = st.s + st.i + st.r + st.f := by
      ring
    rw [heq, hgsum]

theorem simTraj_good {N : ℚ} {p : Params}
    (hN : 0 < N) (hv : validParams p) (hks : p.kappa + p.sigma ≤ 1) :
    ∀ (n : Nat) (st : StateV), stateGood N st →
      ∀ x ∈ simTraj N p n st, stateGood N x := by
  intro n
  induction n with
  | zero => intro st _ x hx; simp [simTraj] at hx
  | succ n ih =>
    intro st hg x hx
    rw [simTraj] at hx
    rcases List.mem_cons.mp hx with rfl | hmem
    · exact eulerStep_good hN hv hks hg
    · exact ih (eulerStep N p st) (eulerStep_good hN hv hks hg) x hmem

theorem simTraj_length (N : ℚ) (p : Params) :
    ∀ (n : Nat) (st : StateV), (simTraj N p n st).length = n := by
  intro n
  induction n with
  | zero => intro st; rfl
  | succ n ih => intro st; rw [simTraj]; simp [ih]

/-! ## Scenario Manager lemmas -/

theorem alookup_areplace_self {α : Type} :
    ∀ (reg : List (String × α)) (name : String) (v v2 : α),
      alookup reg name = some v →
      alookup (areplace reg name v2) name = some v2 := by
  intro reg
  induction reg with
  | nil => intro name v v2 h; simp [alookup] at h
  | cons kv rest ih =>
    intro name v v2 h
    obtain ⟨k, w⟩ := kv
    by_cases hk : k = name
    · rw [areplace, if_pos hk, alookup, if_pos hk]
    · rw [alookup, if_neg hk] at h
      rw [areplace, if_neg hk, alookup, if_neg hk]
      exact ih name v v2 h

theorem alookup_areplace_ne {α : Type} :
    ∀ (reg : List (String × α)) (name m : String) (v2 : α),
      m ≠ name →
      alookup (areplace reg name v2) m = alookup reg m := by
  intro reg
  induction reg with
  | nil => intro name m v2 _; rfl
  | cons kv rest ih =>
    intro name m v2 hne
    obtain ⟨k, w⟩ := kv
    by_cases hk : k = name
    · have hkm : ¬ k = m := fun h => hne (h.symm.trans hk)
      rw [areplace, if_pos hk, alookup, if_neg hkm, alookup, if_neg hkm]
    · rw [areplace, if_neg hk]
      by_cases hkm : k = m
      · rw [alookup, if_pos hkm, alookup, if_pos hkm]
      · rw [alookup, if_neg hkm, alookup, if_neg hkm]
        exact ih name m v2 hne

theorem opApply_frame {sc sc2 : Scenario} {op : Op}
    (h : opApply sc op = .ok sc2) :
    sc2.population = sc.population ∧ sc2.init = sc.init ∧ sc2.obs = sc.obs ∧
      ∀ m, m ≠ op.target → alookup sc2.registry m = alookup sc.registry m := by
  cases op with
  | addPhase n e pov =>
    rw [opApply, Scenario.add] at h
    cases halo : alookup sc.registry n with
    | none => rw [halo] at h; exact absurd h (by simp)
    | some ps =>
      rw [halo] at h
      dsimp only at h
      cases hlast : ps.getLast? with
      | none => rw [hlast] at h; exact absurd h (by simp)
      | some lastPh =>
        rw [hlast] at h
        dsimp only at h
        by_cases hlt : lastPh.endD < e
        · rw [if_pos hlt] at h
          have h2 := Except.ok.inj h
          subst h2
          refine ⟨rfl, rfl, rfl, ?_⟩
          intro m hm
          exact alookup_areplace_ne sc.registry n m _ hm
        · rw [if_neg hlt] at h
          exact absurd h (by simp)
  | removeLast n =>
    rw [opApply, Scenario.removeLast] at h
    cases halo : alookup sc.registry n with
    | none => rw [halo] at h; exact absurd h (by simp)
    | some ps =>
      rw [halo] at h
      dsimp only at h
      by_cases hlen : ps.length ≤ 1
      · rw [if_pos hlen] at h
        exact absurd h (by simp)
      · rw [if_neg hlen] at h
        have h2 := Except.ok.inj h
        subst h2
        refine ⟨rfl, rfl, rfl, ?_⟩
        intro m hm
        exact alookup_areplace_ne sc.registry n m _ hm
  | override n i p =>
    rw [opApply, Scenario.override] at h
    cases halo : alookup sc.registry n with
    | none => rw [halo] at h; exact absurd h (by simp)
    | some ps =>
      rw [halo] at h
      dsimp only at h
      by_cases hlen : i < ps.length
      · rw [if_pos hlen] at h
        have h2 := Except.ok.inj h
        subst h2
        refine ⟨rfl, rfl, rfl, ?_⟩
        intro m hm
        exact alookup_areplace_ne sc.registry n m _ hm
      · rw [if_neg hlen] at h
        exact absurd h (by simp)
  | estimate n =>
    rw [opApply, Scenario.estimate] at h
    cases halo : alookup sc.registry n with
    | none => rw [halo] at h; exact absurd h (by simp)
    | some ps =>
      rw [halo] at h
      have h2 := Except.ok.inj h
      subst h2
      refine ⟨rfl, rfl, rfl, ?_⟩
      intro m hm
      exact alookup_areplace_ne sc.registry n m _ hm

theorem runOp_frame (sc : Scenario) (op : Op) :
    (runOp sc op).population = sc.population ∧ (runOp sc op).init = sc.init ∧
      (runOp sc op).obs = sc.obs ∧
      ∀ m, m ≠ op.target → alookup (runOp sc op).registry m = alookup sc.registry m := by
  cases h : opApply sc op with
  | ok sc2 =>
    have h2 := opApply_frame h
    rw [runOp, h]
    exact h2
  | error e =>
    rw [runOp, h]
    exact ⟨rfl, rfl, rfl, fun _ _ => rfl⟩

theorem runOps_frame (t : String) :
    ∀ (ops : List Op) (sc : Scenario), (∀ op ∈ ops, op.target = t) →
      ∀ m, m ≠ t →
        (runOps sc ops).population = sc.population ∧ (runOps sc ops).init = sc.init ∧
        (runOps sc ops).obs = sc.obs ∧
        alookup (runOps sc ops).registry m = alookup sc.registry m := by
  intro ops
  induction ops with
  | nil => intro sc _ m _; exact ⟨rfl, rfl, rfl, rfl⟩
  | cons op rest ih =>
    intro sc hops m hm
    have hop : op.target = t := hops op (List.mem_cons_self _ _)
    have hrest : ∀ o ∈ rest, o.target = t := fun o ho => hops o (List.mem_cons_of_mem _ ho)
    have hstep := runOp_frame sc op
    have htail := ih (runOp sc op) hrest m hm
    rw [runOps] at htail ⊢
    rw [List.foldl_cons]
    refine ⟨?_, ?_, ?_, ?_⟩
    · rw [htail.1, hstep.1]
    · rw [htail.2.1, hstep.2.1]
    · rw [htail.2.2.1, hstep.2.2.1]
    · rw [htail.2.2.2, hstep.2.2.2 m (hop ▸ hm)]

/-! ## Simulation lemmas -/

theorem withParams_none_iff : ∀ (ps : List Phase),
    withParams ps = none ↔ ∃ ph ∈ ps, ph.params = none := by
  intro ps
  induction ps with
  | nil => simp [withParams]
  | cons ph rest ih =>
    rw [withParams]
    cases hp : ph.params with
    | none =>
      simp only [hp]
      constructor
      · intro _; exact ⟨ph, List.mem_cons_self _ _, hp⟩
      · intro _; trivial
    | some p =>
      cases hw : withParams rest with
      | none =>
        simp only [hw]
        constructor
        · intro _
          obtain ⟨q, hq, hqn⟩ := (ih).mp hw
          exact ⟨q, List.mem_cons_of_mem _ hq, hqn⟩
        · intro _; trivial
      | some l =>
        simp only [hw]
        constructor
        · intro h; exact absurd h (by simp)
        · intro h
          obtain ⟨q, hq, hqn⟩ := h
          rcases List.mem_cons.mp hq with rfl | hmem
          · rw [hp] at hqn; exact absurd hqn (by simp)
          · have : withParams rest = none := (ih).mpr ⟨q, hmem, hqn⟩
            rw [this] at hw
            exact absurd hw (by simp)

theorem withParams_isSome {ps : List Phase}
    (h : ∀ ph ∈ ps, ph.params ≠ none) : ∃ l, withParams ps = some l := by
  cases hw : withParams ps with
  | none =>
    obtain ⟨q, hq, hqn⟩ := (withParams_none_iff ps).mp hw
    exact absurd hqn (h q hq)
  | some l => exact ⟨l, rfl⟩

theorem segChain_ne_nil {l : List (Nat × Nat)} {lo hi : Nat}
    (hlt : lo < hi) (h : segChain lo hi l) : l ≠ [] := by
  cases l with
  | nil => have : lo = hi := h; omega
  | cons x t => simp

theorem segChain_head : ∀ {l : List (Nat × Nat)} {lo hi : Nat},
    segChain lo hi l → l ≠ [] → l.head?.map Prod.fst = some lo := by
  intro l lo hi h hne
  cases l with
  | nil => exact absurd rfl hne
  | cons x t =>
    obtain ⟨hx, _, _⟩ := h
    simp [hx]

theorem alookup_map_pairs {α β : Type} (g : String × α → β) :
    ∀ (l : List (String × α)) (c : String) (b : β),
      alookup (l.map (fun e => (e.1, g e))) c = some b → ∃ e ∈ l, b = g e := by
  intro l
  induction l with
  | nil => intro c b h; simp [alookup] at h
  | cons e rest ih =>
    intro c b h
    rw [List.map_cons, alookup] at h
    by_cases hk : e.1 = c
    · rw [if_pos hk] at h
      exact ⟨e, List.mem_cons_self _ _, (Option.some_inj.mp h).symm⟩
    · rw [if_neg hk] at h
      obtain ⟨e2, he2, hb⟩ := ih c b h
      exact ⟨e2, List.mem_cons_of_mem _ he2, hb⟩

/-! ## Claim theorems -/

/-- C1: For every TimeSeries input, the Trend Segmenter returns an ordered
list of phases that are contiguous and non-overlapping, and whose union
equals the input series' date range exactly (no gaps, no overlaps): the
list is nonempty, starts at day 0, ends at the series length, consecutive
phases meet exactly, and every phase is nonempty. -/
theorem trend_segmenter_partitions (ys : List ℚ) (L : Nat) (h : ys ≠ []) :
    segmentSeries ys L ≠ [] ∧
    (segmentSeries ys L).head?.map Prod.fst = some 0 ∧
    (segmentSeries ys L).getLast?.map Prod.snd = some ys.length ∧
    List.Chain' (fun x y => x.2 = y.1) (segmentSeries ys L) ∧
    ∀ ab ∈ segmentSeries ys L, ab.1 < ab.2 := by
  have hlen : 0 < ys.length := List.length_pos.mpr h
  have hchain : segChain 0 ys.length (segmentSeries ys L) :=
    trendSegmentF_chain (sseCost ys) 1 L ys.length 0 ys.length hlen (by omega)
  have hne := segChain_ne_nil hlen hchain
  exact ⟨hne, segChain_head hchain hne, segChain_last hchain hne,
    segChain_chain hchain, segChain_mem_lt hchain⟩

theorem trend_segmenter_partitions_w :
    ([0] : List ℚ) ≠ [] ∧ segmentSeries [0] 3 ≠ [] :=
  ⟨by simp, (trend_segmenter_partitions [0] 3 (by simp)).1⟩

/-- C2: For every scenario and horizon date, `simulate` fails with the
incomplete-phase error if and only if some phase within the simulation
range has neither estimated parameters nor explicit overrides; when every
phase in range has parameters, `simulate` succeeds with a simulated
series. -/
theorem simulate_incomplete_iff (sc : Scenario) (name : String) (horizon : Nat)
    (ps : List Phase) (h : alookup sc.registry name = some ps) :
    (sc.simulate name horizon = .error .incompletePhase ↔
      ∃ ph ∈ inRange ps horizon, ph.params = none) ∧
    ((∀ ph ∈ inRange ps horizon, ph.params ≠ none) →
      ∃ out, sc.simulate name horizon = .ok out) := by
  constructor
  · rw [Scenario.simulate, h]
    dsimp only
    cases hw : withParams (inRange ps horizon) with
    | none =>
      constructor
      · intro _; exact (withParams_none_iff _).mp hw
      · intro _; rfl
    | some l =>
      constructor
      · intro hcontra; exact absurd hcontra (by simp)
      · intro hex
        have hnone : withParams (inRange ps horizon) = none :=
          (withParams_none_iff _).mpr hex
        rw [hnone] at hw
        exact absurd hw (by simp)
  · intro hall
    obtain ⟨l, hl⟩ := withParams_isSome hall
    refine ⟨simChain sc.population horizon sc.init l, ?_⟩
    rw [Scenario.simulate, h]
    dsimp only
    rw [hl]

theorem simulate_incomplete_iff_w :
    alookup scInc.registry "Main" = some [⟨0, 2, none⟩] ∧
      scInc.simulate "Main" 1 = .error .incompletePhase :=
  ⟨by simp [scInc, alookup],
    (simulate_incomplete_iff scInc "Main" 1 [⟨0, 2, none⟩] (by simp [scInc, alookup])).1.mpr
      ⟨⟨0, 2, none⟩, by simp [inRange], rfl⟩⟩

/-- C3: For every scenario whose phases all have estimated parameters, two
runs of `simulate` with identical arguments and no intervening mutation
return identical output (determinism of `simulate` as a two-run
property). -/
theorem simulate_deterministic (sc : Scenario) (name : String) (horizon : Nat)
    (out1 out2 : List StateV)
    (h1 : sc.simulate name horizon = .ok out1)
    (h2 : sc.simulate name horizon = .ok out2) : out1 = out2 :=
  Except.ok.inj (h1.symm.trans h2)

theorem simulate_deterministic_w :
    Scenario.simulate scSim "Main" 1 = .ok [stW] ∧ ([stW] : List StateV) = [stW] := by
  have hok : Scenario.simulate scSim "Main" 1 = .ok [stW] := by
    norm_num [Scenario.simulate, alookup, scSim, inRange, withParams, simChain, simTraj,
      simFinal, eulerStep, sirfDeriv, stW, pZero]
  exact ⟨hok, simulate_deterministic scSim "Main" 1 [stW] [stW] hok hok⟩

/-- C4: For every scenario manager state and every sequence of mutations
(add_phase, remove_phases, parameter overrides, estimation) applied to a
clone of a source sequence under a new name, the phase sequence,
parameters, and all other state of the source are unchanged (clone
independence). -/
theorem clone_independent (sc sc1 : Scenario) (src new : String) (ops : List Op)
    (hne : src ≠ new) (hcl : Scenario.clear sc src new = .ok sc1)
    (hops : ∀ op ∈ ops, op.target = new) :
    alookup (runOps sc1 ops).registry src = alookup sc.registry src ∧
    (runOps sc1 ops).population = sc.population ∧
    (runOps sc1 ops).init = sc.init ∧ (runOps sc1 ops).obs = sc.obs := by
  rw [Scenario.clear] at hcl
  cases hlook : alookup sc.registry src with
  | none => rw [hlook] at hcl; exact absurd hcl (by simp)
  | some ps =>
    rw [hlook] at hcl
    dsimp only at hcl
    have hsc1 := Except.ok.inj hcl
    subst hsc1
    have hframe := runOps_frame new ops
      { sc with registry := (new, ps) :: sc.registry } hops src hne
    refine ⟨?_, hframe.1, hframe.2.1, hframe.2.2.1⟩
    rw [hframe.2.2.2]
    show alookup ((new, ps) :: sc.registry) src = some ps
    rw [alookup, if_neg (fun hcontra => hne hcontra.symm)]
    exact hlook

theorem clone_independent_w :
    Scenario.clear scSim "Main" "New" = .ok scSimClone ∧
    alookup (runOps scSimClone opsW).registry "Main" = alookup scSim.registry "Main" := by
  have hcl : Scenario.clear scSim "Main" "New" = .ok scSimClone := by
    simp [Scenario.clear, scSim, scSimClone, alookup]
  exact ⟨hcl,
    (clone_independent scSim scSimClone "Main" "New" opsW (by simp) hcl (by simp [opsW, Op.target])).1⟩

/-- C5: For every scenario with fully-parameterised phases, restricting the
chained simulation across all phases to the sub-horizon ending at phase 1's
boundary equals the result of simulating phase 1 alone over that
sub-horizon (prefix consistency of phase-chained simulation). -/
theorem simulate_prefix_consistency (sc : Scenario) (name : String)
    (p1 : Phase) (rest : List Phase) (H : Nat)
    (hlook : alookup sc.registry name = some (p1 :: rest))
    (hall : ∀ ph ∈ p1 :: rest, ph.params ≠ none)
    (h1 : p1.startD < p1.endD) (hH : p1.endD ≤ H) :
    Except.map (fun l => List.take (p1.endD - p1.startD) l) (sc.simulate name H) =
      (sc.withPhases name [p1]).simulate name p1.endD := by
  obtain ⟨q, hq⟩ := Option.ne_none_iff_exists'.mp (hall p1 (List.mem_cons_self _ _))
  have hlook2 : alookup (sc.withPhases name [p1]).registry name = some [p1] :=
    alookup_areplace_self _ _ _ _ hlook
  have hinr1 : inRange [p1] p1.endD = [p1] := by
    simp [inRange, h1]
  have hrest : ∀ ph ∈ inRange rest H, ph.params ≠ none := fun ph hph =>
    hall ph (List.mem_cons_of_mem _ (List.mem_of_mem_filter hph))
  obtain ⟨l, hl⟩ := withParams_isSome hrest
  have hinr2 : inRange (p1 :: rest) H = p1 :: inRange rest H := by
    simp only [inRange, List.filter_cons]
    rw [if_pos (by simp; omega)]
  have hwp1 : withParams (p1 :: inRange rest H) = some ((p1.startD, p1.endD, q) :: l) := by
    rw [withParams, hq, hl]
  have hwp2 : withParams [p1] = some [(p1.startD, p1.endD, q)] := by
    rw [withParams, hq, withParams]
  have htrajlen : (simTraj sc.population q (p1.endD - p1.startD) sc.init).length
      = p1.endD - p1.startD := simTraj_length _ _ _ _
  have hL : sc.simulate name H
      = .ok (simTraj sc.population q (p1.endD - p1.startD) sc.init ++
          simChain sc.population H
            (simFinal sc.population q (p1.endD - p1.startD) sc.init) l) := by
    rw [Scenario.simulate, hlook]
    dsimp only
    rw [hinr2, hwp1]
    dsimp only
    rw [simChain, Nat.min_eq_left hH]
  have hR : (sc.withPhases name [p1]).simulate name p1.endD
      = .ok (simTraj sc.population q (p1.endD - p1.startD) sc.init) := by
    rw [Scenario.simulate, hlook2]
    dsimp only
    rw [hinr1, hwp2]
    dsimp only
    rw [simChain, simChain, Nat.min_self]
    rw [List.append_nil]
    rfl
  rw [hL, hR]
  dsimp only [Except.map]
  rw [List.take_left' htrajlen]

theorem simulate_prefix_consistency_w :
    alookup scTwo.registry "Main" = some [⟨0, 1, some pZero⟩, ⟨1, 2, some pZero⟩] ∧
    Except.map (fun l => List.take 1 l) (scTwo.simulate "Main" 2) =
      (scTwo.withPhases "Main" [⟨0, 1, some pZero⟩]).simulate "Main" 1 := by
  have hlook : alookup scTwo.registry "Main"
      = some [⟨0, 1, some pZero⟩, ⟨1, 2, some pZero⟩] := by
    simp [scTwo, alookup]
  refine ⟨hlook, ?_⟩
  have := simulate_prefix_consistency scTwo "Main" ⟨0, 1, some pZero⟩
    [⟨1, 2, some pZero⟩] 2 hlook (by simp) (by simp) (by simp)
  simpa using this

/-- C6 (amended): for every valid parameter mapping the derivative's output
has the model's state dimensionality, and — provided additionally the
combined per-step outflow rate satisfies `kappa + sigma ≤ 1` — every state
of a simulation started in a valid state stays componentwise non-negative
and sums exactly to the population at every step. -/
theorem sirf_step_invariant (N : ℚ) (p : Params) (s0 : StateV) (n : Nat)
    (hN : 0 < N) (hv : validParams p) (hks : p.kappa + p.sigma ≤ 1)
    (h0 : stateGood N s0) :
    (∀ st : StateV, (stateList (sirfDeriv N p st)).length = (stateList st).length) ∧
    ∀ st ∈ simTraj N p n s0, stateGood N st :=
  ⟨fun _ => rfl, fun st hst => simTraj_good hN hv hks n s0 h0 st hst⟩

theorem sirf_step_invariant_w :
    (0 : ℚ) < 4 ∧ validParams pOkc ∧ pOkc.kappa + pOkc.sigma ≤ 1 ∧ stateGood 4 stOkc ∧
    ∀ st ∈ simTraj 4 pOkc 2 stOkc, stateGood 4 st := by
  have hN : (0 : ℚ) < 4 := by norm_num
  have hv : validParams pOkc := by norm_num [validParams, pOkc]
  have hks : pOkc.kappa + pOkc.sigma ≤ 1 := by norm_num [pOkc]
  have h0 : stateGood 4 stOkc := by norm_num [stateGood, stOkc]
  exact ⟨hN, hv, hks, h0, (sirf_step_invariant 4 pOkc stOkc 2 hN hv hks h0).2⟩

/-- C6 counterexample: the parameter mapping `pBad` is domain-valid (every
rate in `[0, 1]`), the state `stBad` is valid for population 4, yet after a
single simulation step the infected component is negative: the claim's
non-negativity invariant fails as stated for arbitrary valid parameter
mappings. -/
theorem sirf_invariant_cex :
    validParams pBad ∧ stateGood 4 stBad ∧
    ¬ ∀ st ∈ simTraj 4 pBad 1 stBad, stateGood 4 st := by
  refine ⟨by norm_num [validParams, pBad], by norm_num [stateGood, stBad], ?_⟩
  intro h
  have hbad := h (eulerStep 4 pBad stBad) (by simp [simTraj])
  rw [stateGood] at hbad
  norm_num [eulerStep, sirfDeriv, pBad, stBad] at hbad

/-- C7: if a scenario-level operation fails with an error, the scenario's
phase sequences and all other state are left exactly as they were before
the call (all-or-nothing atomicity; structural errors abort only the
requested operation). -/
theorem op_error_atomic (sc : Scenario) (op : Op) (e : SimErr)
    (h : opApply sc op = .error e) : runOp sc op = sc := by
  rw [runOp, h]

theorem op_error_atomic_w :
    opApply scSim (Op.addPhase "Nope" 3 none) = .error .phaseNotFound ∧
    runOp scSim (Op.addPhase "Nope" 3 none) = scSim := by
  have h : opApply scSim (Op.addPhase "Nope" 3 none) = .error .phaseNotFound := by
    simp [opApply, Scenario.add, scSim, alookup]
  exact ⟨h, op_error_atomic scSim (Op.addPhase "Nope" 3 none) .phaseNotFound h⟩

/-- C8 (amended): for every nonempty series and minimum segment length `L`,
every phase returned by the Trend Segmenter spans at least
`min L (series length)` days (so at least `L` days whenever the series has
at least `L` points), a series with fewer than `2 * L` points yields
exactly one phase spanning the whole series, and the returned phases
partition the whole date range. -/
theorem trend_min_length (ys : List ℚ) (L : Nat) (h : ys ≠ []) :
    (∀ ab ∈ segmentSeries ys L, min L ys.length ≤ ab.2 - ab.1) ∧
    (ys.length < 2 * L → segmentSeries ys L = [(0, ys.length)]) ∧
    segChain 0 ys.length (segmentSeries ys L) := by
  have hlen : 0 < ys.length := List.length_pos.mpr h
  refine ⟨?_, ?_, trendSegmentF_chain (sseCost ys) 1 L ys.length 0 ys.length hlen (by omega)⟩
  · intro ab hab
    have hmin := trendSegmentF_minLen (sseCost ys) 1 L ys.length 0 ys.length ab hab
    simpa using hmin
  · intro hshort
    exact trendSegment_short (sseCost ys) 1 hlen (by omega)

theorem trend_min_length_w :
    ([0] : List ℚ) ≠ [] ∧
    ∀ ab ∈ segmentSeries [0] 3, min 3 ([0] : List ℚ).length ≤ ab.2 - ab.1 :=
  ⟨by simp, (trend_min_length [0] 3 (by simp)).1⟩

/-- C8 counterexample: on a 5-point series with minimum segment length 9,
the Trend Segmenter returns a single whole-series phase of 5 days, so the
claim "every phase returned has length at least L" is false as stated. -/
theorem trend_min_length_cex :
    ¬ ∀ ab ∈ segmentSeries [0, 1, 2, 3, 4] 9, 9 ≤ ab.2 - ab.1 := by
  intro h
  have h5 : segmentSeries [0, 1, 2, 3, 4] 9 = [(0, 5)] := by
    simp [segmentSeries, trendSegment, trendSegmentF]
  have := h (0, 5) (by rw [h5]; simp)
  omega

/-- C9: estimation never raises on numerical non-convergence or
under-determination: with fewer data points than free parameters, or with
a best-found score above the tolerance, the returned EstimationResult
carries the low-confidence flag instead of an exception being thrown, and
running estimation over a scenario's phase sequence succeeds and never
drops a phase. -/
theorem estimate_never_raises (N : ℚ) (obs : List StateV) (s0 : StateV)
    (budget : Nat) (tol : ℚ) :
    (obs.length < freeParamCount →
      (phaseEstimate N obs s0 budget tol).lowConfidence = true) ∧
    (tol < (phaseEstimate N obs s0 budget tol).score →
      (phaseEstimate N obs s0 budget tol).lowConfidence = true) ∧
    (∀ (sc : Scenario) (name : String) (ps : List Phase),
      alookup sc.registry name = some ps →
        Scenario.estimate sc name = .ok (sc.withPhases name (estimatePhases sc ps)) ∧
        alookup (sc.withPhases name (estimatePhases sc ps)).registry name
          = some (estimatePhases sc ps) ∧
        (estimatePhases sc ps).length = ps.length) := by
  refine ⟨?_, ?_, ?_⟩
  · intro h
    simp only [phaseEstimate, Bool.or_eq_true, decide_eq_true_eq]
    exact Or.inl h
  · intro h
    simp only [phaseEstimate] at h ⊢
    simp only [Bool.or_eq_true, decide_eq_true_eq]
    exact Or.inr h
  · intro sc name ps h
    refine ⟨?_, ?_, ?_⟩
    · rw [Scenario.estimate, h]
    · exact alookup_areplace_self _ _ _ _ h
    · simp [estimatePhases]

theorem estimate_never_raises_w :
    ([] : List StateV).length < freeParamCount ∧
    (phaseEstimate 4 [] stW 2 tolDefault).lowConfidence = true :=
  ⟨by simp [freeParamCount],
    (estimate_never_raises 4 [] stW 2 tolDefault).1 (by simp [freeParamCount])⟩

/-- C10: after `PolicyMeasures.trend(min_len=n)`, every country remaining
registered has a recorded phase list of at least `n` phases; the registered
set only shrinks, and every country entry whose series segments into fewer
than `n` phases is un-registered rather than kept. -/
theorem trend_unregisters_short (pm : PolicyMeasures) (n : Nat) :
    (∀ c ∈ (pm.trend n).countries, c ∈ pm.countries) ∧
    (∀ c phs, alookup (pm.trend n).phaseMap c = some phs → n ≤ phs.length) ∧
    (∀ e ∈ pm.registry, (segmentSeries e.2 1).length < n → e ∉ (pm.trend n).registry) := by
  refine ⟨?_, ?_, ?_⟩
  · intro c hc
    simp only [PolicyMeasures.countries, PolicyMeasures.trend, List.mem_map] at hc ⊢
    obtain ⟨e, he, rfl⟩ := hc
    exact ⟨e, List.mem_of_mem_filter he, rfl⟩
  · intro c phs h
    simp only [PolicyMeasures.trend] at h
    obtain ⟨e, he, rfl⟩ := alookup_map_pairs (fun e => segmentSeries e.2 1) _ c phs h
    have := List.of_mem_filter he
    simpa using this
  · intro e he hlt hmem
    simp only [PolicyMeasures.trend] at hmem
    have := List.of_mem_filter hmem
    simp only [decide_eq_true_eq] at this
    omega

theorem trend_unregisters_short_w :
    alookup (pmW.trend 2).phaseMap "Japan" = some [(0, 1), (1, 3)] ∧
    2 ≤ ([(0, 1), (1, 3)] : List (Nat × Nat)).length := by
  have hlook : alookup (pmW.trend 2).phaseMap "Japan" = some [(0, 1), (1, 3)] := by
    norm_num [PolicyMeasures.trend, pmW, segmentSeries, trendSegment, trendSegmentF,
      splitCandidates, pickMin, sseCost, sqQ, List.range_succ, alookup]
  exact ⟨hlook, trend_unregisters_short pmW 2 |>.2.1 "Japan" [(0, 1), (1, 3)] hlook⟩

end CovSirPhy
